import Mathlib

/-!
Verification of `tools/llama/build_dataset.py` (dataset-packing pipeline).

The Python program is shallowly embedded: pure text transformations become
recursive functions over `List Char`, the generator pipeline becomes
list-producing functions, and the external collaborators (phonemizer,
numpy loader, protobuf serializer, filesystem) are abstracted into an
explicit environment record, as the spec scopes them out at their
interface boundary.
-/

namespace BuildDataset

/-- Whitespace characters matched by Python's `\s` for `str` patterns
(ASCII whitespace, the C1 separators, and the Unicode space characters). -/
def isPySpace (c : Char) : Bool :=
  c = ' ' || c = '\t' || c = '\n' || (c.val ≥ 0xb && c.val ≤ 0xd) ||
  (c.val ≥ 0x1c && c.val ≤ 0x1f) || c.val = 0x85 || c.val = 0xa0 ||
  c.val = 0x1680 || (c.val ≥ 0x2000 && c.val ≤ 0x200a) || c.val = 0x2028 ||
  c.val = 0x2029 || c.val = 0x202f || c.val = 0x205f || c.val = 0x3000

/-- Scan for the closing bracket `close` of a non-greedy `.*?` span:
returns the remainder after the first `close`, or `none` if a newline or
the end of input is reached first (`.` does not match a newline, so no
match starting at the opening bracket exists in that case). -/
def takeToClose (close : Char) : List Char → Option (List Char)
  | [] => none
  | c :: rest =>
    if c = close then some rest
    else if c = '\n' then none
    else takeToClose close rest

theorem takeToClose_length_le (close : Char) :
    ∀ l l', takeToClose close l = some l' → l'.length ≤ l.length := by
  intro l
  induction l with
  | nil => intro l' h; simp [takeToClose] at h
  | cons c rest ih =>
    intro l' h
    unfold takeToClose at h
    split at h
    · injection h with h; simp [← h]
    · split at h
      · exact absurd h (by simp)
      · exact Nat.le_trans (ih l' h) (by simp)

/-- Fuel-indexed `re.sub` for the pattern `open.*?close` with replacement
`" "`: leftmost scan; at each `open` the non-greedy span ends at the first
`close` with no intervening newline; a failed match leaves the opening
bracket in place and the scan resumes at the next character. The fuel is
a structural-recursion device; `subSpan` supplies the list length, which
always suffices since each step consumes at least one character. -/
def subSpanN (opn close : Char) : Nat → List Char → List Char
  | 0, _ => []
  | _ + 1, [] => []
  | n + 1, c :: rest =>
    if c = opn then
      match takeToClose close rest with
      | some rest' => ' ' :: subSpanN opn close n rest'
      | none => c :: subSpanN opn close n rest
    else c :: subSpanN opn close n rest

/-- `re.sub(r"open.*?close", " ", s)` (embeds lines 99-100 of
build_dataset.py). -/
def subSpan (opn close : Char) (s : List Char) : List Char :=
  subSpanN opn close s.length s

/-- One-pass engine for `re.sub(r"\s+", " ", text)`: the flag records
being inside a whitespace run whose single replacement space was already
emitted; the first character of each run emits `' '`, the rest of the run
is dropped, everything else is copied. -/
def collapseAux : Bool → List Char → List Char
  | _, [] => []
  | inRun, c :: rest =>
    if isPySpace c then
      if inRun then collapseAux true rest
      else ' ' :: collapseAux true rest
    else c :: collapseAux false rest

/-- `re.sub(r"\s+", " ", text)`: every maximal whitespace run becomes one
space (line 101 of build_dataset.py). -/
def collapseWS (s : List Char) : List Char :=
  collapseAux false s

/-- The cleaning step of `run_task` (lines 99-101): replace `{...}` spans,
then `<...>` spans, then collapse whitespace runs. No trimming happens. -/
def sanitize (s : List Char) : List Char :=
  collapseWS (subSpan '<' '>' (subSpan '{' '}' s))

/-- Python `str.strip()`: drop whitespace from both ends. -/
def pyStrip (s : List Char) : List Char :=
  ((s.dropWhile isPySpace).reverse.dropWhile isPySpace).reverse

/-- Modelled from the spec: the sanitization the spec describes — remove
every `{...}` and `<...>` span (replacing each with a space), collapse
whitespace runs, "then trim leading/trailing whitespace". The trimming
step is absent from the source; this definition exists only to compare
the spec's words with the code's `sanitize`. -/
def sanitizeSpec (s : List Char) : List Char :=
  pyStrip (collapseWS (subSpan '<' '>' (subSpan '{' '}' s)))

theorem subSpanN_nil (opn close : Char) (n : Nat) :
    subSpanN opn close n [] = [] := by
  cases n <;> rfl

theorem subSpanN_cons_opn (opn close : Char) (n : Nat) (rest : List Char) :
    subSpanN opn close (n + 1) (opn :: rest) =
      match takeToClose close rest with
      | some rest' => ' ' :: subSpanN opn close n rest'
      | none => opn :: subSpanN opn close n rest := by
  simp [subSpanN]

theorem subSpanN_cons_other (opn close c : Char) (h : ¬c = opn) (n : Nat)
    (rest : List Char) :
    subSpanN opn close (n + 1) (c :: rest) = c :: subSpanN opn close n rest := by
  simp [subSpanN, h]

theorem subSpanN_fuel_eq (opn close : Char) :
    ∀ n m s, s.length ≤ n → s.length ≤ m →
      subSpanN opn close n s = subSpanN opn close m s := by
  intro n
  induction n with
  | zero =>
    intro m s hn _
    have : s = [] := List.length_eq_zero.mp (Nat.le_zero.mp hn)
    subst this
    simp [subSpanN_nil]
  | succ n ih =>
    intro m s hn hm
    cases s with
    | nil => simp [subSpanN_nil]
    | cons c rest =>
      cases m with
      | zero => simp at hm
      | succ m =>
        simp only [List.length_cons, Nat.succ_le_succ_iff] at hn hm
        by_cases hc : c = opn
        · subst hc
          rw [subSpanN_cons_opn, subSpanN_cons_opn]
          cases h : takeToClose close rest with
          | some rest' =>
            have hlen := takeToClose_length_le close rest rest' h
            simp only
            rw [ih m rest' (Nat.le_trans hlen hn) (Nat.le_trans hlen hm)]
          | none =>
            simp only
            rw [ih m rest hn hm]
        · rw [subSpanN_cons_other opn close c hc, subSpanN_cons_other opn close c hc,
            ih m rest hn hm]

theorem takeToClose_none_of_not_mem (close : Char) :
    ∀ l, close ∉ l → takeToClose close l = none := by
  intro l
  induction l with
  | nil => intro _; rfl
  | cons c rest ih =>
    intro h
    have hc : c ≠ close := fun hc => h (hc ▸ List.mem_cons_self c rest)
    have hrest : close ∉ rest := fun hr => h (List.mem_cons_of_mem c hr)
    unfold takeToClose
    rw [if_neg (fun hcc => hc hcc)]
    split
    · rfl
    · exact ih hrest

/-- A pass for `open.*?close` over text with no closing bracket at all is
the identity: unmatched opening brackets are left in place. -/
theorem subSpan_id_of_no_close (opn close : Char) :
    ∀ s, close ∉ s → subSpan opn close s = s := by
  have key : ∀ n s, s.length ≤ n → close ∉ s →
      subSpanN opn close n s = s := by
    intro n
    induction n with
    | zero =>
      intro s hn _
      have : s = [] := List.length_eq_zero.mp (Nat.le_zero.mp hn)
      subst this; rfl
    | succ n ih =>
      intro s hn hmem
      cases s with
      | nil => rfl
      | cons c rest =>
        simp only [List.length_cons, Nat.succ_le_succ_iff] at hn
        have hrest : close ∉ rest := fun hr => hmem (List.mem_cons_of_mem c hr)
        by_cases hc : c = opn
        · subst hc
          rw [subSpanN_cons_opn, takeToClose_none_of_not_mem close rest hrest]
          simp only
          rw [ih rest hn hrest]
        · rw [subSpanN_cons_other opn close c hc, ih rest hn hrest]
  intro s h
  exact key s.length s (Nat.le_refl _) h

theorem takeToClose_span (close : Char) :
    ∀ v w, close ∉ v → '\n' ∉ v →
      takeToClose close (v ++ close :: w) = some w := by
  intro v
  induction v with
  | nil =>
    intro w _ _
    simp [takeToClose]
  | cons c rest ih =>
    intro w hc hn
    have h1 : ¬c = close := fun h => hc (h ▸ List.mem_cons_self c rest)
    have h2 : ¬c = '\n' := fun h => hn (h ▸ List.mem_cons_self c rest)
    simp only [List.cons_append, takeToClose, if_neg h1, if_neg h2]
    exact ih w (fun h => hc (List.mem_cons_of_mem c h))
      (fun h => hn (List.mem_cons_of_mem c h))

/-- A well-formed span (an opening bracket, content free of the closing
bracket and of newlines, then the closing bracket), first in the text, is
replaced by a single space, after which substitution continues on the
remainder. -/
theorem subSpan_replace (opn close : Char) :
    ∀ u v w, opn ∉ u → close ∉ v → '\n' ∉ v →
      subSpan opn close (u ++ opn :: v ++ close :: w) =
        u ++ ' ' :: subSpan opn close w := by
  have key : ∀ u n v w, (u ++ opn :: v ++ close :: w).length ≤ n →
      opn ∉ u → close ∉ v → '\n' ∉ v →
      subSpanN opn close n (u ++ opn :: v ++ close :: w) =
        u ++ ' ' :: subSpan opn close w := by
    intro u
    induction u with
    | nil =>
      intro n v w hn _ hc hnl
      cases n with
      | zero => simp at hn
      | succ n =>
        simp only [List.nil_append, List.cons_append]
        rw [subSpanN_cons_opn opn close n (v ++ close :: w),
          takeToClose_span close v w hc hnl]
        have hw : w.length ≤ n := by
          simp [List.length_append, List.length_cons] at hn
          omega
        simp only
        rw [subSpanN_fuel_eq opn close n w.length w hw (Nat.le_refl _)]
        rfl
    | cons a u ih =>
      intro n v w hn ha hc hnl
      cases n with
      | zero => simp at hn
      | succ n =>
        have ha1 : ¬a = opn := fun h => ha (h ▸ List.mem_cons_self a u)
        have ha2 : opn ∉ u := fun h => ha (List.mem_cons_of_mem a h)
        simp only [List.cons_append]
        rw [subSpanN_cons_other opn close a ha1]
        simp only [List.cons_append, List.length_cons,
          Nat.succ_le_succ_iff] at hn
        rw [ih n v w hn ha2 hc hnl]
  intro u v w ha hc hnl
  exact key u _ v w (Nat.le_refl _) ha hc hnl

/-- Decidable "no two adjacent whitespace characters". -/
def noWSRun : List Char → Bool
  | a :: b :: rest => (!(isPySpace a && isPySpace b)) && noWSRun (b :: rest)
  | _ => true

/-- Decidable "empty or starts with a non-whitespace character". -/
def headNS : List Char → Bool
  | [] => true
  | c :: _ => !isPySpace c

theorem collapseAux_ws_space :
    ∀ (s : List Char) (b : Bool) (c : Char),
      c ∈ collapseAux b s → isPySpace c → c = ' ' := by
  intro s
  induction s with
  | nil => intro b c h; simp [collapseAux] at h
  | cons a rest ih =>
    intro b c hmem hsp
    unfold collapseAux at hmem
    by_cases ha : isPySpace a
    · simp only [if_pos ha] at hmem
      cases b with
      | true => exact ih true c hmem hsp
      | false =>
        simp only [Bool.false_eq_true, if_neg] at hmem
        cases hmem with
        | head => rfl
        | tail _ h => exact ih true c h hsp
    · simp only [if_neg ha] at hmem
      cases hmem with
      | head => exact absurd hsp (by simp [ha])
      | tail _ h => exact ih false c h hsp

theorem collapseWS_ws_space :
    ∀ s c, c ∈ collapseWS s → isPySpace c → c = ' ' :=
  fun s c h => collapseAux_ws_space s false c h

theorem noWSRun_collapseAux :
    ∀ (s : List Char) (b : Bool),
      noWSRun (collapseAux b s) = true ∧
      (b = true → headNS (collapseAux b s) = true) := by
  intro s
  induction s with
  | nil => intro b; exact ⟨rfl, fun _ => rfl⟩
  | cons a rest ih =>
    intro b
    unfold collapseAux
    by_cases ha : isPySpace a
    · simp only [if_pos ha]
      cases b with
      | true => exact ⟨(ih true).1, fun _ => (ih true).2 rfl⟩
      | false =>
        simp only [Bool.false_eq_true, if_neg]
        constructor
        · cases hX : collapseAux true rest with
          | nil => rfl
          | cons d r =>
            have hd : headNS (collapseAux true rest) = true := (ih true).2 rfl
            rw [hX] at hd
            have hnr : noWSRun (collapseAux true rest) = true := (ih true).1
            rw [hX] at hnr
            unfold noWSRun
            simp only [headNS] at hd
            simp [hd, hnr]
        · intro h; cases h
    · simp only [if_neg ha]
      constructor
      · cases hX : collapseAux false rest with
        | nil => rfl
        | cons d r =>
          have hnr : noWSRun (collapseAux false rest) = true := (ih false).1
          rw [hX] at hnr
          unfold noWSRun
          simp [ha, hnr]
      · intro _
        simp [headNS, ha]

theorem noWSRun_collapseWS (s : List Char) :
    noWSRun (collapseWS s) = true :=
  (noWSRun_collapseAux s false).1

theorem mem_collapseAux :
    ∀ (s : List Char) (b : Bool) (c : Char),
      c ∈ s → ¬isPySpace c → c ∈ collapseAux b s := by
  intro s
  induction s with
  | nil => intro b c h; simp at h
  | cons a rest ih =>
    intro b c hmem hns
    unfold collapseAux
    by_cases ha : isPySpace a
    · have hca : ¬c = a := fun h => hns (h ▸ ha)
      have hrest : c ∈ rest := by
        cases hmem with
        | head => exact absurd rfl hca
        | tail _ h => exact h
      simp only [if_pos ha]
      cases b with
      | true => exact ih true c hrest hns
      | false =>
        simp only [Bool.false_eq_true, if_neg]
        exact List.mem_cons_of_mem _ (ih true c hrest hns)
    · simp only [if_neg ha]
      cases hmem with
      | head => exact List.mem_cons_self _ _
      | tail _ h => exact List.mem_cons_of_mem _ (ih false c h hns)

/-- C2 counterexample: the code's sanitization does not trim. On
`"{x} a"` the replaced leading span leaves a leading space, so the code
yields `" a"` while the spec's sanitize-then-trim pipeline yields `"a"`. -/
theorem sanitize_trim_cex :
    sanitize ('{' :: 'x' :: '}' :: ' ' :: 'a' :: []) = ' ' :: 'a' :: [] ∧
    sanitizeSpec ('{' :: 'x' :: '}' :: ' ' :: 'a' :: []) = 'a' :: [] ∧
    sanitize ('{' :: 'x' :: '}' :: ' ' :: 'a' :: []) ≠
      sanitizeSpec ('{' :: 'x' :: '}' :: ' ' :: 'a' :: []) := by
  decide

/-- C2 (amended): sanitization replaces each well-formed `{...}` span and
`<...>` span with a single space and collapses every run of whitespace to
one space, but performs no trimming of leading or trailing whitespace. In
particular `sanitize("a {x} b   c") = "a b c"`, every leading well-formed
span is replaced by one space with substitution continuing after it, the
output never contains two adjacent whitespace characters, and every
whitespace character of the output is a plain space. -/
theorem sanitize_spans_and_collapse :
    sanitize "a {x} b   c".toList = "a b c".toList ∧
    (∀ opn close : Char, ∀ u v w : List Char, opn ∉ u → close ∉ v → '\n' ∉ v →
      subSpan opn close (u ++ opn :: v ++ close :: w) =
        u ++ ' ' :: subSpan opn close w) ∧
    (∀ s, noWSRun (sanitize s) = true) ∧
    (∀ s c, c ∈ sanitize s → isPySpace c → c = ' ') := by
  refine ⟨by decide, fun opn close => subSpan_replace opn close, ?_, ?_⟩
  · intro s
    exact noWSRun_collapseWS _
  · intro s c h hsp
    exact collapseWS_ws_space _ c h hsp

/-- Witness for C2's amended theorem at concrete inputs. -/
theorem sanitize_spans_and_collapse_witness :
    subSpan '{' '}' ('a' :: '{' :: 'x' :: '}' :: 'y' :: []) =
      ('a' :: []) ++ ' ' :: subSpan '{' '}' ('y' :: []) ∧
    noWSRun (sanitize ('a' :: ' ' :: ' ' :: 'b' :: [])) = true := by
  constructor
  · exact sanitize_spans_and_collapse.2.1 '{' '}' ('a' :: []) ('x' :: [])
      ('y' :: []) (by decide) (by decide) (by decide)
  · exact sanitize_spans_and_collapse.2.2.1 _

/-- C10 counterexample: the `'<'` in `"{a<b}"` is an opening bracket with
no matching `'>'` anywhere after it, yet sanitization removes it, because
it sits inside the well-formed `{...}` span that the first substitution
pass deletes; the whole input collapses to a single space. -/
theorem unmatched_angle_cex :
    '<' ∈ ('{' :: 'a' :: '<' :: 'b' :: '}' :: []) ∧
    '>' ∉ ('{' :: 'a' :: '<' :: 'b' :: '}' :: []) ∧
    '\n' ∉ ('{' :: 'a' :: '<' :: 'b' :: '}' :: []) ∧
    sanitize ('{' :: 'a' :: '<' :: 'b' :: '}' :: []) = ' ' :: [] ∧
    '<' ∉ sanitize ('{' :: 'a' :: '<' :: 'b' :: '}' :: []) := by
  decide

/-- C10 (amended): when the input contains no closing bracket `'}'` or
`'>'` at all, both substitution passes are the identity, so sanitization
only collapses whitespace and every non-whitespace character — in
particular every unmatched opening `'{'` and `'<'` — is preserved in the
output. (An unmatched opening bracket lying inside a well-formed span of
the other bracket kind is removed with that span.) -/
theorem unmatched_open_preserved (s : List Char) (hb : '}' ∉ s) (ha : '>' ∉ s) :
    sanitize s = collapseWS s ∧
      ∀ c ∈ s, ¬isPySpace c → c ∈ sanitize s := by
  have h1 : subSpan '{' '}' s = s := subSpan_id_of_no_close '{' '}' s hb
  have h2 : subSpan '<' '>' s = s := subSpan_id_of_no_close '<' '>' s ha
  have hs : sanitize s = collapseWS s := by
    unfold sanitize
    rw [h1, h2]
  refine ⟨hs, fun c hc hns => ?_⟩
  rw [hs]
  exact mem_collapseAux s false c hc hns

/-- Witness for C10's amended theorem at a concrete input. -/
theorem unmatched_open_preserved_witness :
    sanitize ('{' :: 'a' :: '<' :: 'b' :: []) = '{' :: 'a' :: '<' :: 'b' :: [] ∧
    '<' ∈ sanitize ('{' :: 'a' :: '<' :: 'b' :: []) := by
  have h := unmatched_open_preserved ('{' :: 'a' :: '<' :: 'b' :: [])
    (by decide) (by decide)
  constructor
  · rw [h.1]; decide
  · exact h.2 '<' (by decide) (by decide)

/-! ## Data model: paths, groups, records -/

/-- A filesystem path with a non-empty final component: the directory
names outermost first, then the final component split into pathlib's stem
and suffix (`ext` is `""` or starts with a dot). -/
structure FSPath where
  dirs : List String
  stem : String
  ext : String
deriving DecidableEq

/-- pathlib's `with_suffix` validity check: the new suffix must be empty
or start with a dot and not be a bare dot, else `ValueError`. -/
def validSuffix (s : String) : Bool :=
  match s.data with
  | [] => true
  | c :: rest => c = '.' && !rest.isEmpty

/-- `PurePath.with_suffix`: replace the last suffix; `none` models the
`ValueError` raised on an invalid suffix. -/
def withSuffix (p : FSPath) (s : String) : Option FSPath :=
  if validSuffix s then some ⟨p.dirs, p.stem, s⟩ else none

/-- `file.with_suffix(".npy")` (line 83); `".npy"` always passes the
suffix validity check, so this is total. -/
def npyOf (p : FSPath) : FSPath :=
  ⟨p.dirs, p.stem, ".npy"⟩

/-- The path string `"<dirs>/<stem><ext>"` joined with `/`, which is what
Python compares when sorting `Path` objects. -/
def pathStr (p : FSPath) : String :=
  String.intercalate "/" (p.dirs ++ (p.stem ++ p.ext) :: [])

/-- The `pointer.parent.name` walk of lines 44-48: ancestor directory
names, nearest first. -/
def allParents (p : FSPath) : List String :=
  p.dirs.reverse

/-- A group member: a bare path (tree mode) or the manifest tuple
`(path, text, languages)` unpacked at line 79. -/
inductive Member
  | tree (file : FSPath)
  | inline (file : FSPath) (text : List Char) (languages : List String)
deriving DecidableEq

def memberFile : Member → FSPath
  | Member.tree f => f
  | Member.inline f _ _ => f

def isTree : Member → Bool
  | Member.tree _ => true
  | _ => false

def isInline : Member → Bool
  | Member.tree _ => false
  | _ => true

/-- One task tuple as yielded by either generator:
`(name, subset, source, languages, extension)`. -/
structure Task where
  name : String
  subset : List Member
  source : String
  languages : List String
  extension : Option String
deriving DecidableEq

/-- One `Sentence` protobuf message: sanitized text, phone symbols, and
one `Semantics` row of integer codes per codebook. -/
structure Sentence where
  text : List Char
  phones : List String
  semantics : List (List Int)
deriving DecidableEq

/-- One `TextData` protobuf message (lines 123-128). -/
structure TextData where
  source : String
  name : String
  languages : List String
  sentences : List Sentence
deriving DecidableEq

/-- The external collaborators of `run_task`, abstracted at their
interface boundary: filesystem existence and reads, the phonemizer `g2p`
(returning `(language, phone)` pairs, `none` for a raised exception), the
numpy loader (returning the array already normalized to nested lists,
`none` for a raised exception), and the protobuf serializer. -/
structure Env where
  npyExists : FSPath → Bool
  txtExists : FSPath → Bool
  readTxt : FSPath → List Char
  g2p : List Char → List String → Option (List (String × String))
  loadNpy : FSPath → Option (List (List Int))
  serialize : TextData → List Nat

/-- The loop-carried state of `run_task`'s member loop: the accumulated
sentence list and the current value of the `languages` variable, which
line 79 rebinds for every manifest member. -/
structure RunState where
  sentences : List Sentence
  languages : List String
deriving DecidableEq

/-- The `languages` variable after the unpacking of lines 78-81: a tree
member leaves it as it was, a manifest tuple rebinds it. -/
def memberLangs (init : List String) : Member → List String
  | Member.tree _ => init
  | Member.inline _ _ ls => ls

/-- One iteration of the member loop (lines 77-119). The outer `Option`
is `none` only when an exception would escape `run_task`: a tree member
processed with `extension = None` (`TypeError` in `with_suffix`) or with
an invalid suffix (`ValueError`). Every modelled per-member failure —
missing feature file, missing sidecar text, phonemizer exception, array
loader exception — returns the state unchanged except for the rebound
`languages`. -/
def step (env : Env) (ext : Option String) (st : RunState) (m : Member) :
    Option RunState :=
  let langs := memberLangs st.languages m
  let file := memberFile m
  if env.npyExists (npyOf file) = false then some ⟨st.sentences, langs⟩
  else
    let textOpt : Option (Option (List Char)) :=
      match m with
      | Member.inline _ t _ => some (some t)
      | Member.tree _ =>
        match ext with
        | none => none
        | some e =>
          match withSuffix file e with
          | none => none
          | some txtFile =>
            if env.txtExists txtFile then
              some (some (pyStrip (env.readTxt txtFile)))
            else some none
    match textOpt with
    | none => none
    | some none => some ⟨st.sentences, langs⟩
    | some (some rawText) =>
      let text := sanitize rawText
      match env.g2p text langs, env.loadNpy (npyOf file) with
      | some pairs, some rows =>
        some ⟨st.sentences ++ ⟨text, pairs.map Prod.snd, rows⟩ :: [], langs⟩
      | _, _ => some ⟨st.sentences, langs⟩

/-- `run_task` up to serialization (lines 72-129): fold the member loop,
then build the one `TextData` record from the accumulated sentences and
the final value of the `languages` variable. -/
def run_task_record (env : Env) (t : Task) : Option TextData :=
  (t.subset.foldlM (step env t.extension) ⟨[], t.languages⟩).map
    (fun st => ⟨t.source, t.name, st.languages, st.sentences⟩)

/-- Modelled from the spec: `pack_pb_stream` lives in
`fish_speech/datasets/protos/text_data_stream.py`, which is not among the
sources; spec §4.4 defines one frame as a 4-byte little-endian unsigned
length followed by the payload bytes. -/
def pack_pb_stream (payload : List Nat) : List Nat :=
  (payload.length % 256) :: (payload.length / 256 % 256) ::
    (payload.length / 65536 % 256) :: (payload.length / 16777216 % 256) ::
    payload

/-- `run_task` (lines 72-129): one packed frame per group. -/
def run_task (env : Env) (t : Task) : Option (List Nat) :=
  (run_task_record env t).map (fun r => pack_pb_stream (env.serialize r))

/-- The driver's write loop (lines 147-149): completed byte blobs are
appended to the output file in completion order. -/
def writeOutput (completed : List (List Nat)) : List Nat :=
  completed.flatten

/-- A task is free of the unmodelled crash paths: either its extension is
a valid suffix, or every member is a manifest tuple (which never touches
the extension). Both generators only produce such tasks when their
configuration is well-formed. -/
def taskOK (t : Task) : Prop :=
  (∃ e, t.extension = some e ∧ validSuffix e = true) ∨
    ∀ m ∈ t.subset, isInline m = true

/-- How the `languages` variable evolves over the whole member loop:
tree members leave it alone, manifest members rebind it (line 79). -/
def lastLangs (init : List String) (ms : List Member) : List String :=
  ms.foldl memberLangs init

theorem lastLangs_all_tree (ms : List Member) :
    ∀ init, (∀ m ∈ ms, isTree m = true) → lastLangs init ms = init := by
  induction ms with
  | nil => intro init _; rfl
  | cons m rest ih =>
    intro init h
    have hm : isTree m = true := h m (List.mem_cons_self m rest)
    cases m with
    | tree f =>
      unfold lastLangs List.foldl
      exact ih init (fun x hx => h x (List.mem_cons_of_mem _ hx))
    | inline f t ls => simp [isTree] at hm

theorem step_some_of_ok (env : Env) (ext : Option String) (st : RunState)
    (m : Member)
    (h : (∃ e, ext = some e ∧ validSuffix e = true) ∨ isInline m = true) :
    ∃ st', step env ext st m = some st' ∧
      st'.languages = memberLangs st.languages m := by
  cases m with
  | inline f t ls =>
    unfold step
    simp only [memberLangs, memberFile]
    by_cases hnp : env.npyExists (npyOf f) = false
    · exact ⟨_, by rw [if_pos hnp], rfl⟩
    · rw [if_neg hnp]
      cases hg : env.g2p (sanitize t) ls with
      | none => exact ⟨⟨st.sentences, ls⟩, by simp [hg], rfl⟩
      | some pairs =>
        cases hl : env.loadNpy (npyOf f) with
        | none => exact ⟨⟨st.sentences, ls⟩, by simp [hg, hl], rfl⟩
        | some rows =>
          exact ⟨⟨st.sentences ++
            ⟨sanitize t, pairs.map Prod.snd, rows⟩ :: [], ls⟩,
            by simp [hg, hl], rfl⟩
  | tree f =>
    obtain ⟨e, hext, hval⟩ := h.resolve_right (by simp [isInline])
    subst hext
    unfold step
    simp only [memberLangs, memberFile]
    by_cases hnp : env.npyExists (npyOf f) = false
    · exact ⟨_, by rw [if_pos hnp], rfl⟩
    · rw [if_neg hnp]
      simp only [withSuffix, if_pos hval]
      by_cases htx : env.txtExists ⟨f.dirs, f.stem, e⟩ = true
      · simp only [htx, if_pos]
        cases hg : env.g2p (sanitize (pyStrip (env.readTxt ⟨f.dirs, f.stem, e⟩)))
            st.languages with
        | none => exact ⟨⟨st.sentences, st.languages⟩, by simp [hg], rfl⟩
        | some pairs =>
          cases hl : env.loadNpy (npyOf f) with
          | none => exact ⟨⟨st.sentences, st.languages⟩, by simp [hg, hl], rfl⟩
          | some rows =>
            exact ⟨⟨st.sentences ++
              ⟨sanitize (pyStrip (env.readTxt ⟨f.dirs, f.stem, e⟩)),
                pairs.map Prod.snd, rows⟩ :: [], st.languages⟩,
              by simp [hg, hl], rfl⟩
      · have htx' : env.txtExists ⟨f.dirs, f.stem, e⟩ = false :=
          Bool.eq_false_iff.mpr (fun hh => htx hh)
        simp only [htx', Bool.false_eq_true, if_neg]
        exact ⟨⟨st.sentences, st.languages⟩, rfl, rfl⟩

theorem foldlM_step_some (env : Env) (ext : Option String) :
    ∀ (ms : List Member) (st : RunState),
      ((∃ e, ext = some e ∧ validSuffix e = true) ∨
        ∀ m ∈ ms, isInline m = true) →
      ∃ st', List.foldlM (step env ext) st ms = some st' ∧
        st'.languages = lastLangs st.languages ms := by
  intro ms
  induction ms with
  | nil => intro st _; exact ⟨st, rfl, rfl⟩
  | cons m rest ih =>
    intro st h
    have hm : (∃ e, ext = some e ∧ validSuffix e = true) ∨ isInline m = true :=
      h.imp id (fun hh => hh m (List.mem_cons_self m rest))
    obtain ⟨st1, hst1, hl1⟩ := step_some_of_ok env ext st m hm
    have hrest : (∃ e, ext = some e ∧ validSuffix e = true) ∨
        ∀ x ∈ rest, isInline x = true :=
      h.imp id (fun hh x hx => hh x (List.mem_cons_of_mem m hx))
    obtain ⟨st', hst', hl'⟩ := ih st1 hrest
    refine ⟨st', ?_, ?_⟩
    · rw [List.foldlM_cons, hst1]
      exact hst'
    · rw [hl', hl1]
      rfl

theorem foldlM_step_allmiss (env : Env) (ext : Option String) :
    ∀ (ms : List Member) (st : RunState),
      (∀ m ∈ ms, env.npyExists (npyOf (memberFile m)) = false) →
      List.foldlM (step env ext) st ms =
        some ⟨st.sentences, lastLangs st.languages ms⟩ := by
  intro ms
  induction ms with
  | nil => intro st _; rfl
  | cons m rest ih =>
    intro st h
    have hm := h m (List.mem_cons_self m rest)
    rw [List.foldlM_cons]
    have hstep : step env ext st m =
        some ⟨st.sentences, memberLangs st.languages m⟩ := by
      unfold step
      rw [if_pos hm]
    rw [hstep]
    exact ih ⟨st.sentences, memberLangs st.languages m⟩
      (fun x hx => h x (List.mem_cons_of_mem m hx))

/-! ## Group discovery -/

/-- `grouped_files[key].append(v)` on an insertion-ordered dictionary
(Python's `defaultdict(list)`): the value is appended to the existing
entry, or a new entry is added at the end. -/
def insertKV {α : Type} (groups : List (String × List α)) (key : String)
    (v : α) : List (String × List α) :=
  match groups with
  | [] => (key, v :: []) :: []
  | (k, vs) :: rest =>
    if k = key then (k, vs ++ v :: []) :: rest
    else (k, vs) :: insertKV rest key v

/-- The grouping loops (lines 42-55 and 63-65): fold all `(key, value)`
pairs into an insertion-ordered dictionary and return its entries. -/
def groupPairs {α : Type} (pairs : List (String × α)) :
    List (String × List α) :=
  pairs.foldl (fun acc p => insertKV acc p.1 p.2) []

/-- One parsed manifest line `path|speaker|language_tags|text`
(`load_filelist` is outside the sources; spec §6 fixes the field layout,
and the path is modelled already parsed). -/
structure Row where
  filename : FSPath
  speaker : String
  languages : List String
  text : List Char
deriving DecidableEq

/-- `task_generator_filelist` (lines 62-69): group rows by speaker, then
yield one task per speaker. The `languages` in each yielded tuple is the
loop variable left over from the parsing loop, i.e. the languages of the
**last** manifest row, not the group's own tags; with no rows, the yield
loop body never runs. -/
def task_generator_filelist (rows : List Row) : List Task :=
  match rows.getLast? with
  | none => []
  | some last =>
    (groupPairs (rows.map
        (fun r => (r.speaker, Member.inline r.filename r.text r.languages)))).map
      (fun g => ⟨g.1, g.2, "filelist", last.languages, none⟩)

/-! ## Claim C1: per-member fault isolation in run_task -/

/-- C1: per-member failures (missing feature file, missing sidecar text,
phonemizer error, array-loading error) skip only that member: for every
task free of the unmodelled crash paths the member loop completes and
yields exactly one record; and a two-member tree group whose first member
lacks its feature file and whose second member is fully valid yields a
record with exactly the one sentence of the valid member. -/
theorem run_task_isolates_member_failures :
    (∀ (env : Env) (t : Task), taskOK t →
      ∃ r, run_task_record env t = some r) ∧
    (∀ (env : Env) (name source : String) (langs : List String) (e : String)
        (f1 f2 tp : FSPath) (txt : List Char)
        (pairs : List (String × String)) (rows : List (List Int)),
      validSuffix e = true →
      env.npyExists (npyOf f1) = false →
      env.npyExists (npyOf f2) = true →
      withSuffix f2 e = some tp →
      env.txtExists tp = true →
      env.readTxt tp = txt →
      env.g2p (sanitize (pyStrip txt)) langs = some pairs →
      env.loadNpy (npyOf f2) = some rows →
      run_task_record env
          ⟨name, Member.tree f1 :: Member.tree f2 :: [], source, langs, some e⟩ =
        some ⟨source, name, langs,
          ⟨sanitize (pyStrip txt), pairs.map Prod.snd, rows⟩ :: []⟩) := by
  constructor
  · intro env t hok
    obtain ⟨st', hst', _⟩ :=
      foldlM_step_some env t.extension t.subset ⟨[], t.languages⟩ hok
    exact ⟨_, by unfold run_task_record; rw [hst']; rfl⟩
  · intro env name source langs e f1 f2 tp txt pairs rows
      hval h1 h2 htp htxt hrd hg hl
    subst hrd
    have htp' : tp = ⟨f2.dirs, f2.stem, e⟩ := by
      unfold withSuffix at htp
      rw [if_pos hval] at htp
      exact (Option.some.inj htp).symm
    subst htp'
    have hstep1 : step env (some e) ⟨[], langs⟩ (Member.tree f1) =
        some ⟨[], langs⟩ := by
      simp [step, memberFile, memberLangs, h1]
    have hstep2 : step env (some e) ⟨[], langs⟩ (Member.tree f2) =
        some ⟨⟨sanitize (pyStrip (env.readTxt ⟨f2.dirs, f2.stem, e⟩)),
          pairs.map Prod.snd, rows⟩ :: [], langs⟩ := by
      simp [step, memberFile, memberLangs, withSuffix, hval, h2, htxt, hg, hl]
    simp [run_task_record, List.foldlM_cons, List.foldlM_nil, hstep1, hstep2]

def f1W : FSPath := ⟨[], "m1", ".wav"⟩

def f2W : FSPath := ⟨[], "m2", ".wav"⟩

/-- A concrete environment: the feature file exists only for stem `m2`,
sidecar texts always exist and read as `"hi"`, the phonemizer and loader
always succeed. -/
def envW : Env where
  npyExists := fun p => p.stem == "m2"
  txtExists := fun _ => true
  readTxt := fun _ => 'h' :: 'i' :: []
  g2p := fun _ _ => some (("en", "HH") :: [])
  loadNpy := fun _ => some (((1 : Int) :: 2 :: []) :: [])
  serialize := fun _ => 7 :: []

def taskW : Task :=
  ⟨"g", Member.tree f1W :: Member.tree f2W :: [], "src", "en" :: [],
    some ".lab"⟩

/-- Witness for C1 at a concrete environment and task. -/
theorem run_task_isolates_member_failures_witness :
    (∃ r, run_task_record envW taskW = some r) ∧
    run_task_record envW taskW =
      some ⟨"src", "g", "en" :: [],
        ⟨sanitize (pyStrip ('h' :: 'i' :: [])), "HH" :: [],
          ((1 : Int) :: 2 :: []) :: []⟩ :: []⟩ := by
  constructor
  · exact run_task_isolates_member_failures.1 envW taskW
      (Or.inl ⟨".lab", rfl, by decide⟩)
  · exact run_task_isolates_member_failures.2 envW "g" "src" ("en" :: [])
      ".lab" f1W f2W ⟨[], "m2", ".lab"⟩ ('h' :: 'i' :: [])
      (("en", "HH") :: []) (((1 : Int) :: 2 :: []) :: [])
      (by decide) (by decide) (by decide) (by decide) (by decide) rfl rfl rfl

/-! ## Claim C6: one record per group, always written -/

/-- C6: every group free of the unmodelled crash paths produces exactly
one packed record — even a group all of whose members were skipped, whose
record then carries an empty sentence list — and every completed blob is
written into the output stream. -/
theorem one_record_per_group_written :
    (∀ (env : Env) (t : Task), taskOK t →
      ∃ r, run_task_record env t = some r ∧
        run_task env t = some (pack_pb_stream (env.serialize r))) ∧
    (∀ (env : Env) (t : Task),
      (∀ m ∈ t.subset, env.npyExists (npyOf (memberFile m)) = false) →
      ∃ r, run_task_record env t = some r ∧ r.sentences = []) ∧
    (∀ (blob : List Nat) (completed : List (List Nat)), blob ∈ completed →
      ∃ pre post, writeOutput completed = pre ++ blob ++ post) := by
  refine ⟨?_, ?_, ?_⟩
  · intro env t hok
    obtain ⟨st', hst', _⟩ :=
      foldlM_step_some env t.extension t.subset ⟨[], t.languages⟩ hok
    have hrec : run_task_record env t =
        some ⟨t.source, t.name, st'.languages, st'.sentences⟩ := by
      unfold run_task_record
      rw [hst']
      rfl
    exact ⟨_, hrec, by unfold run_task; rw [hrec]; rfl⟩
  · intro env t h
    have hfold := foldlM_step_allmiss env t.extension t.subset
      ⟨[], t.languages⟩ h
    refine ⟨⟨t.source, t.name, lastLangs t.languages t.subset, []⟩, ?_, rfl⟩
    unfold run_task_record
    rw [hfold]
    rfl
  · intro blob completed hmem
    obtain ⟨s, t, hst⟩ := List.append_of_mem hmem
    refine ⟨s.flatten, t.flatten, ?_⟩
    rw [hst]
    unfold writeOutput
    rw [List.flatten_append, List.flatten_cons, List.append_assoc]

/-- The environment in which no feature file exists at all: every member
of every group is skipped. -/
def envN : Env :=
  { envW with npyExists := fun _ => false }

/-- Witness for C6 at concrete environments, a task, and a blob list. -/
theorem one_record_per_group_written_witness :
    (∃ r, run_task_record envW taskW = some r ∧
      run_task envW taskW = some (pack_pb_stream (envW.serialize r))) ∧
    (∃ r, run_task_record envN taskW = some r ∧ r.sentences = []) ∧
    (∃ pre post,
      writeOutput ((5 :: []) :: (6 :: []) :: []) = pre ++ (5 :: []) ++ post) := by
  refine ⟨?_, ?_, ?_⟩
  · exact one_record_per_group_written.1 envW taskW
      (Or.inl ⟨".lab", rfl, by decide⟩)
  · exact one_record_per_group_written.2.1 envN taskW (by decide)
  · exact one_record_per_group_written.2.2 (5 :: [])
      ((5 :: []) :: (6 :: []) :: []) (by decide)

/-! ## Claim C4: record languages vs. the discovered tuple's languages -/

/-- A two-speaker manifest: speaker `spk1` with tags `en`, then speaker
`spk2` with tags `zh` on the last line. -/
def rows0 : List Row :=
  ⟨⟨[], "a", ".wav"⟩, "spk1", "en" :: [], 't' :: '1' :: []⟩ ::
  ⟨⟨[], "b", ".wav"⟩, "spk2", "zh" :: [], 't' :: '2' :: []⟩ :: []

/-- An environment in which every member succeeds trivially. -/
def env0 : Env where
  npyExists := fun _ => true
  txtExists := fun _ => true
  readTxt := fun _ => []
  g2p := fun _ _ => some []
  loadNpy := fun _ => some []
  serialize := fun _ => []

/-- C4 counterexample: in manifest mode the first discovered group
(`spk1`) carries the language tags of the **last** parsed line (`zh`,
line 69's leaked loop variable), while the serialized record's languages
is the last member's own tags (`en`, rebound at line 79): the record's
languages differs from the tuple's. -/
theorem record_languages_cex :
    ((task_generator_filelist rows0).head?.map Task.languages) =
      some ("zh" :: []) ∧
    (((task_generator_filelist rows0).head?.bind
        (run_task_record env0)).map TextData.languages) = some ("en" :: []) ∧
    (some ("zh" :: []) : Option (List String)) ≠ some ("en" :: []) := by
  decide

/-- C4 (amended): the serialized record's `languages` equals the final
value of the loop's `languages` variable: the task tuple's list if every
member is a tree member (tree mode), else the tags of the last manifest
member, which can differ from the tuple's list (itself the tags of the
last parsed manifest line). -/
theorem record_languages_amended :
    ∀ (env : Env) (t : Task), taskOK t →
      ∃ r, run_task_record env t = some r ∧
        r.languages = lastLangs t.languages t.subset ∧
        ((∀ m ∈ t.subset, isTree m = true) → r.languages = t.languages) := by
  intro env t hok
  obtain ⟨st', hst', hl⟩ :=
    foldlM_step_some env t.extension t.subset ⟨[], t.languages⟩ hok
  refine ⟨⟨t.source, t.name, st'.languages, st'.sentences⟩,
    by unfold run_task_record; rw [hst']; rfl, hl, fun h => ?_⟩
  have := lastLangs_all_tree t.subset t.languages h
  simp only at hl
  rw [hl, this]

/-- Witness for C4's amended theorem at a concrete environment/task. -/
theorem record_languages_amended_witness :
    ∃ r, run_task_record envW taskW = some r ∧
      r.languages = lastLangs taskW.languages taskW.subset ∧
      ((∀ m ∈ taskW.subset, isTree m = true) →
        r.languages = taskW.languages) :=
  record_languages_amended envW taskW (Or.inl ⟨".lab", rfl, by decide⟩)

/-! ## Claim C5: the module-level thread-pinning startup step -/

/-- The names bound at module scope by the import block (lines 1-15) of
`tools/llama/build_dataset.py` before line 17 runs. `os` is not among
them: no `import os` exists in the file. -/
def importedNames : List String :=
  "re" :: "defaultdict" :: "Pool" :: "Path" :: "click" :: "np" :: "yaml" ::
  "logger" :: "tqdm" :: "Semantics" :: "Sentence" :: "TextData" ::
  "pack_pb_stream" :: "g2p" :: "load_filelist" :: []

/-- The module-level startup step (lines 17-19) with Python name
resolution modelled over the module's bound names: it must resolve `os`
before it can set the two thread-count environment variables; an
unresolvable name raises `NameError`. -/
def startupStep : Except String (List (String × String)) :=
  if "os" ∈ importedNames then
    Except.ok (("MKL_NUM_THREADS", "1") :: ("OMP_NUM_THREADS", "1") :: [])
  else Except.error "NameError"

/-- C5 (code bug): the startup step that should pin `MKL_NUM_THREADS` and
`OMP_NUM_THREADS` to `"1"` raises `NameError` instead of completing,
because the module references `os` without importing it; the variables
are never set. -/
theorem startup_missing_os :
    startupStep = Except.error "NameError" ∧ "os" ∉ importedNames :=
  ⟨rfl, by decide⟩

/-! ## Claim C8: CLI configuration-source selection -/

/-- The two configuration sources `main` can select between. -/
inductive ConfigSource
  | yamlConfig (path : String)
  | filelistSource (path : String)
deriving DecidableEq

/-- Lines 141-145: the generator choice. `--config` always has a value
(it has a CLI default) and is silently ignored whenever `--filelist` is
given; nothing rejects an invocation supplying both. -/
def chooseSource (config : String) (filelist : Option String) :
    ConfigSource :=
  match filelist with
  | none => ConfigSource.yamlConfig config
  | some f => ConfigSource.filelistSource f

/-- C8 counterexample: an invocation supplying both a config and a
filelist is accepted and silently uses the filelist, ignoring the config
— there is no rejection (the selection has no error outcome at all). -/
theorem cli_both_sources_cex :
    chooseSource "a.yaml" (some "b.list") =
      ConfigSource.filelistSource "b.list" ∧
    ConfigSource.filelistSource "b.list" ≠ ConfigSource.yamlConfig "a.yaml" := by
  decide

/-- C8 (amended): the two sources are not mutually exclusive options;
instead the manifest silently takes precedence: any invocation with a
filelist uses the filelist (whatever the config value is), and any
invocation without one uses the config. Exactly one source is used, but
a both-supplied invocation is accepted, never rejected. -/
theorem cli_source_selection :
    (∀ (c f : String),
      chooseSource c (some f) = ConfigSource.filelistSource f) ∧
    (∀ c : String, chooseSource c none = ConfigSource.yamlConfig c) :=
  ⟨fun _ _ => rfl, fun _ => rfl⟩

/-! ## Tree-mode group discovery -/

/-- Sequential fallible map: `none` as soon as one element fails, as the
Python loops raise at the first failing element. -/
def mapO {α β : Type} (g : α → Option β) : List α → Option (List β)
  | [] => some []
  | a :: l =>
    match g a, mapO g l with
    | some b, some bs => some (b :: bs)
    | _, _ => none

/-- Python list indexing `l[i]`: negative indices count from the end;
`none` is an `IndexError`. -/
def pyGet {α : Type} (l : List α) (i : Int) : Option α :=
  if 0 ≤ i then l.get? i.toNat
  else if -i ≤ (l.length : Int) then l.get? (l.length - (-i).toNat)
  else none

/-- Lines 50-54: select the ancestor names at positions `level - 1` of
the nearest-first parent list, in configured order, and join them with
`-`; `none` is the `IndexError` of an out-of-range ancestor index. -/
def groupKey (pl : List Int) (p : FSPath) : Option String :=
  (mapO (fun lv => pyGet (allParents p) (lv - 1)) pl).map
    (fun ps => String.intercalate "-" ps)

/-- One `datasets` entry of the YAML config, with the raw (run-dependent)
`rglob` enumeration of the `.npy` files under its root supplied as data. -/
structure TreeDataset where
  files : List FSPath
  source : String
  languages : List String
  extension : String
  parentLevel : Sum Int (List Int)
deriving DecidableEq

/-- Lines 35-36: a bare integer `group_parent_level` is wrapped into a
one-element list. -/
def normLevel : Sum Int (List Int) → List Int
  | Sum.inl n => n :: []
  | Sum.inr l => l

/-- Insertion sort by the path string, embedding `sorted(files)` of line
40 (Python sorts `Path` objects by their string form). -/
def insertSorted (f : FSPath) : List FSPath → List FSPath
  | [] => f :: []
  | g :: rest =>
    if pathStr f ≤ pathStr g then f :: g :: rest
    else g :: insertSorted f rest

def sortFiles (files : List FSPath) : List FSPath :=
  files.foldr insertSorted []

/-- Lines 38-59 for one dataset: sort the enumerated files, key each file
by its configured ancestor names, group, and build the task tuples.
`none` is the `IndexError` raised during the grouping loop when some
file's directory depth is exceeded — raised before any group of this
dataset is yielded. -/
def processDataset (ds : TreeDataset) : Option (List Task) :=
  let pl := normLevel ds.parentLevel
  let files := sortFiles ds.files
  (mapO (fun f => (groupKey pl f).map
      (fun k => (k, Member.tree f))) files).map
    (fun keyed => (groupPairs keyed).map
      (fun g => ⟨g.1, g.2, ds.source, ds.languages, some ds.extension⟩))

/-- The generator of lines 22-59 over the whole config, observed until
exhaustion or the first raised error: the tasks actually yielded, and
whether the iteration ended in an `IndexError` instead of normally. -/
def task_generator_yaml : List TreeDataset → List Task × Bool
  | [] => ([], false)
  | ds :: rest =>
    match processDataset ds with
    | none => ([], true)
    | some gs =>
      let r := task_generator_yaml rest
      (gs ++ r.1, r.2)

/-! ## Claim C3: fail-fast on bad ancestor indices -/

/-- C3 counterexample: a configuration with a healthy first dataset and a
second dataset whose `group_parent_level` exceeds a file's depth yields
the first dataset's group **before** raising: the error does not abort
the whole configuration before any group is emitted. -/
theorem ancestor_index_cex :
    task_generator_yaml
        (⟨⟨"d" :: [], "a", ".npy"⟩ :: [], "s1", "en" :: [], ".lab",
            Sum.inr (1 :: [])⟩ ::
          ⟨⟨[], "b", ".npy"⟩ :: [], "s2", "en" :: [], ".lab",
            Sum.inr (1 :: [])⟩ :: []) =
      (⟨"d", Member.tree ⟨"d" :: [], "a", ".npy"⟩ :: [], "s1", "en" :: [],
          some ".lab"⟩ :: [], true) ∧
    (⟨"d", Member.tree ⟨"d" :: [], "a", ".npy"⟩ :: [], "s1", "en" :: [],
        some ".lab"⟩ :: [] : List Task) ≠ [] := by
  constructor
  · rfl
  · decide

/-- C3 (amended): the `IndexError` of an out-of-range ancestor index is
raised while grouping, after all files of the offending dataset are
enumerated but before any of its groups is yielded — so no group of that
dataset (or of later datasets) is ever emitted; groups of earlier,
healthy datasets in the same configuration have already been emitted by
then. Fail-fast holds per dataset, not for the whole configuration. -/
theorem ancestor_fail_fast_per_dataset :
    ∀ (pre : List TreeDataset) (ds : TreeDataset) (post : List TreeDataset),
      processDataset ds = none →
      (task_generator_yaml pre).2 = false →
      task_generator_yaml (pre ++ ds :: post) =
        ((task_generator_yaml pre).1, true) := by
  intro pre
  induction pre with
  | nil =>
    intro ds post hds _
    simp only [List.nil_append]
    unfold task_generator_yaml
    rw [hds]
  | cons d pre ih =>
    intro ds post hds hok
    have hd : ∃ gs, processDataset d = some gs := by
      cases hpd : processDataset d with
      | none =>
        exfalso
        unfold task_generator_yaml at hok
        rw [hpd] at hok
        simp at hok
      | some gs => exact ⟨gs, rfl⟩
    obtain ⟨gs, hgs⟩ := hd
    have hok' : (task_generator_yaml pre).2 = false := by
      unfold task_generator_yaml at hok
      rw [hgs] at hok
      exact hok
    simp only [List.cons_append]
    unfold task_generator_yaml
    rw [hgs, ih ds post hds hok']

/-- Witness for C3's amended theorem at a concrete configuration. -/
theorem ancestor_fail_fast_per_dataset_witness :
    task_generator_yaml
        ((⟨⟨"d" :: [], "a", ".npy"⟩ :: [], "s1", "en" :: [], ".lab",
            Sum.inr (1 :: [])⟩ :: []) ++
          ⟨⟨[], "b", ".npy"⟩ :: [], "s2", "en" :: [], ".lab",
            Sum.inr (1 :: [])⟩ :: []) =
      ((task_generator_yaml
          (⟨⟨"d" :: [], "a", ".npy"⟩ :: [], "s1", "en" :: [], ".lab",
            Sum.inr (1 :: [])⟩ :: [])).1, true) :=
  ancestor_fail_fast_per_dataset
    (⟨⟨"d" :: [], "a", ".npy"⟩ :: [], "s1", "en" :: [], ".lab",
      Sum.inr (1 :: [])⟩ :: [])
    ⟨⟨[], "b", ".npy"⟩ :: [], "s2", "en" :: [], ".lab", Sum.inr (1 :: [])⟩
    [] rfl rfl

/-! ## Claim C9: integer group_parent_level as a one-element list -/

theorem intercalate_single (x : String) :
    String.intercalate "-" (x :: []) = x := by
  simp [String.intercalate, String.intercalate.go]

/-- C9: a dataset whose `group_parent_level` is a bare integer `n` is
processed exactly like one whose level list is `[n]`, and a one-element
level list keys each file by just the ancestor name at that position:
the group key is that single name, with no `-` joining. -/
theorem int_parent_level_singleton :
    (∀ (files : List FSPath) (src : String) (langs : List String)
        (ext : String) (n : Int),
      processDataset ⟨files, src, langs, ext, Sum.inl n⟩ =
        processDataset ⟨files, src, langs, ext, Sum.inr (n :: [])⟩) ∧
    (∀ (p : FSPath) (n : Int),
      groupKey (n :: []) p = pyGet (allParents p) (n - 1)) := by
  constructor
  · intro files src langs ext n
    rfl
  · intro p n
    unfold groupKey mapO
    cases h : pyGet (allParents p) (n - 1) with
    | none => rfl
    | some x => simp [mapO, intercalate_single]

/-! ## Claim C7: tree-mode grouping determinism -/

theorem insertSorted_perm (f : FSPath) :
    ∀ l, (insertSorted f l).Perm (f :: l) := by
  intro l
  induction l with
  | nil => exact List.Perm.refl _
  | cons g rest ih =>
    unfold insertSorted
    by_cases h : pathStr f ≤ pathStr g
    · rw [if_pos h]
    · rw [if_neg h]
      exact (ih.cons g).trans (List.Perm.swap f g rest)

theorem sortFiles_perm : ∀ l, (sortFiles l).Perm l := by
  intro l
  induction l with
  | nil => exact List.Perm.refl _
  | cons f rest ih =>
    unfold sortFiles List.foldr
    exact (insertSorted_perm f _).trans (ih.cons f)

theorem insertSorted_sorted (f : FSPath) :
    ∀ l, List.Pairwise (fun a b => pathStr a ≤ pathStr b) l →
      List.Pairwise (fun a b => pathStr a ≤ pathStr b) (insertSorted f l) := by
  intro l
  induction l with
  | nil => intro _; simp [insertSorted]
  | cons g rest ih =>
    intro h
    rw [List.pairwise_cons] at h
    unfold insertSorted
    by_cases hle : pathStr f ≤ pathStr g
    · rw [if_pos hle]
      rw [List.pairwise_cons]
      refine ⟨?_, List.pairwise_cons.mpr h⟩
      intro x hx
      cases hx with
      | head => exact hle
      | tail _ hx => exact le_trans hle (h.1 x hx)
    · rw [if_neg hle]
      rw [List.pairwise_cons]
      have hgf : pathStr g ≤ pathStr f := le_of_not_le hle
      refine ⟨?_, ih h.2⟩
      intro x hx
      have : x = f ∨ x ∈ rest := by
        have := (insertSorted_perm f rest).mem_iff.mp hx
        simpa using this
      cases this with
      | inl he => exact he ▸ hgf
      | inr hm => exact h.1 x hm

theorem sortFiles_sorted :
    ∀ l, List.Pairwise (fun a b => pathStr a ≤ pathStr b) (sortFiles l) := by
  intro l
  induction l with
  | nil => simp [sortFiles]
  | cons f rest ih =>
    unfold sortFiles List.foldr
    exact insertSorted_sorted f _ ih

theorem sortFiles_sorted_lt (l : List FSPath) (hnd : l.Nodup)
    (hinj : ∀ a ∈ l, ∀ b ∈ l, pathStr a = pathStr b → a = b) :
    List.Pairwise (fun a b => pathStr a < pathStr b) (sortFiles l) := by
  have hperm := sortFiles_perm l
  have hnd' : (sortFiles l).Nodup := hperm.nodup_iff.mpr hnd
  have hs := sortFiles_sorted l
  have hand := hs.and hnd'
  refine hand.imp_of_mem ?_
  intro a b ha hb hab
  have ha' : a ∈ l := hperm.subset ha
  have hb' : b ∈ l := hperm.subset hb
  refine lt_of_le_of_ne hab.1 ?_
  intro heq
  exact hab.2 (hinj a ha' b hb' heq)

theorem sortFiles_eq_of_perm (files₁ files₂ : List FSPath)
    (hperm : files₁.Perm files₂) (hnd : files₁.Nodup)
    (hinj : ∀ a ∈ files₁, ∀ b ∈ files₁, pathStr a = pathStr b → a = b) :
    sortFiles files₁ = sortFiles files₂ := by
  have hnd₂ : files₂.Nodup := hperm.nodup_iff.mp hnd
  have hinj₂ : ∀ a ∈ files₂, ∀ b ∈ files₂, pathStr a = pathStr b → a = b :=
    fun a ha b hb => hinj a (hperm.mem_iff.mpr ha) b (hperm.mem_iff.mpr hb)
  have h1 := sortFiles_sorted_lt files₁ hnd hinj
  have h2 := sortFiles_sorted_lt files₂ hnd₂ hinj₂
  have hp : (sortFiles files₁).Perm (sortFiles files₂) :=
    ((sortFiles_perm files₁).trans hperm).trans (sortFiles_perm files₂).symm
  haveI : IsAntisymm FSPath (fun a b => pathStr a < pathStr b) :=
    ⟨fun a b h1 h2 => absurd (h1.trans h2) (lt_irrefl _)⟩
  exact List.eq_of_perm_of_sorted hp h1 h2

theorem mapO_mem {α β : Type} (g : α → Option β) :
    ∀ (l : List α) (l' : List β), mapO g l = some l' →
      ∀ y ∈ l', ∃ x, x ∈ l ∧ g x = some y := by
  intro l
  induction l with
  | nil =>
    intro l' h y hy
    unfold mapO at h
    injection h with h
    rw [← h] at hy
    simp at hy
  | cons a rest ih =>
    intro l' h y hy
    unfold mapO at h
    cases hga : g a with
    | none => rw [hga] at h; simp at h
    | some b =>
      rw [hga] at h
      cases hrest : mapO g rest with
      | none => rw [hrest] at h; simp at h
      | some bs =>
        rw [hrest] at h
        simp only at h
        injection h with h
        rw [← h] at hy
        cases hy with
        | head => exact ⟨a, List.mem_cons_self a rest, hga⟩
        | tail _ hy =>
          obtain ⟨x, hx, hgx⟩ := ih bs hrest y hy
          exact ⟨x, List.mem_cons_of_mem a hx, hgx⟩

theorem insertKV_inv {α : Type} (P : String → α → Prop) :
    ∀ (acc : List (String × List α)) (key : String) (x : α),
      (∀ k vs, (k, vs) ∈ acc → ∀ v ∈ vs, P k v) → P key x →
      ∀ k vs, (k, vs) ∈ insertKV acc key x → ∀ v ∈ vs, P k v := by
  intro acc
  induction acc with
  | nil =>
    intro key x _ hP k vs hmem v hv
    unfold insertKV at hmem
    rw [List.mem_singleton] at hmem
    injection hmem with h1 h2
    subst h1
    rw [h2] at hv
    rw [List.mem_singleton] at hv
    rw [hv]
    exact hP
  | cons p rest ih =>
    intro key x hacc hP k vs hmem v hv
    obtain ⟨k0, vs0⟩ := p
    unfold insertKV at hmem
    by_cases hk : k0 = key
    · rw [if_pos hk] at hmem
      rw [List.mem_cons] at hmem
      cases hmem with
      | inl heq =>
        injection heq with h1 h2
        subst h1
        rw [h2] at hv
        rw [List.mem_append] at hv
        cases hv with
        | inl h => exact hacc _ vs0 (List.mem_cons_self _ _) v h
        | inr h =>
          rw [List.mem_singleton] at h
          subst h
          rw [hk]
          exact hP
      | inr hmem => exact hacc k vs (List.mem_cons_of_mem _ hmem) v hv
    · rw [if_neg hk] at hmem
      rw [List.mem_cons] at hmem
      cases hmem with
      | inl heq =>
        injection heq with h1 h2
        subst h1
        rw [h2] at hv
        exact hacc _ vs0 (List.mem_cons_self _ _) v hv
      | inr hmem =>
        exact ih key x
          (fun k' vs' h' => hacc k' vs' (List.mem_cons_of_mem _ h'))
          hP k vs hmem v hv

theorem foldl_insertKV_inv {α : Type} (P : String → α → Prop) :
    ∀ (pairs : List (String × α)) (acc : List (String × List α)),
      (∀ k vs, (k, vs) ∈ acc → ∀ v ∈ vs, P k v) →
      (∀ p ∈ pairs, P p.1 p.2) →
      ∀ k vs,
        (k, vs) ∈ pairs.foldl (fun a p => insertKV a p.1 p.2) acc →
        ∀ v ∈ vs, P k v := by
  intro pairs
  induction pairs with
  | nil => intro acc hacc _ k vs hmem v hv; exact hacc k vs hmem v hv
  | cons p rest ih =>
    intro acc hacc hp k vs hmem v hv
    rw [List.foldl_cons] at hmem
    exact ih (insertKV acc p.1 p.2)
      (insertKV_inv P acc p.1 p.2 hacc (hp p (List.mem_cons_self _ _)))
      (fun q hq => hp q (List.mem_cons_of_mem _ hq)) k vs hmem v hv

theorem groupPairs_mem {α : Type} (pairs : List (String × α)) :
    ∀ k vs, (k, vs) ∈ groupPairs pairs → ∀ v ∈ vs, (k, v) ∈ pairs := by
  intro k vs hmem v hv
  exact foldl_insertKV_inv (fun k' v' => (k', v') ∈ pairs) pairs []
    (fun _ _ h => absurd h (List.not_mem_nil _)) (fun p hp => hp)
    k vs hmem v hv

/-- C7: tree-mode grouping is deterministic: the raw `rglob` enumeration
order does not matter — any two enumerations of the same files (distinct
paths) produce identical tasks — because the file list is sorted by path
string before grouping (a genuine sort: a permutation of the input,
ordered by `pathStr`); and every member of every emitted group is a tree
member whose configured ancestor names, joined with `-` in configured
order (nearest ancestor first), equal the group's key. -/
theorem tree_grouping_deterministic :
    (∀ (files₁ files₂ : List FSPath) (src : String) (langs : List String)
        (ext : String) (pl : Sum Int (List Int)),
      files₁.Perm files₂ → files₁.Nodup →
      (∀ a ∈ files₁, ∀ b ∈ files₁, pathStr a = pathStr b → a = b) →
      processDataset ⟨files₁, src, langs, ext, pl⟩ =
        processDataset ⟨files₂, src, langs, ext, pl⟩) ∧
    (∀ files, (sortFiles files).Perm files ∧
      List.Pairwise (fun a b => pathStr a ≤ pathStr b) (sortFiles files)) ∧
    (∀ (ds : TreeDataset) (ts : List Task), processDataset ds = some ts →
      ∀ t ∈ ts, ∀ m ∈ t.subset, ∃ f, m = Member.tree f ∧
        groupKey (normLevel ds.parentLevel) f = some t.name) := by
  refine ⟨?_, fun files => ⟨sortFiles_perm files, sortFiles_sorted files⟩, ?_⟩
  · intro files₁ files₂ src langs ext pl hperm hnd hinj
    have hsort := sortFiles_eq_of_perm files₁ files₂ hperm hnd hinj
    unfold processDataset
    rw [hsort]
  · intro ds ts hts t ht m hm
    unfold processDataset at hts
    simp only at hts
    cases hmap : mapO (fun f => (groupKey (normLevel ds.parentLevel) f).map
        (fun k => (k, Member.tree f))) (sortFiles ds.files) with
    | none => rw [hmap] at hts; simp at hts
    | some keyed =>
      rw [hmap] at hts
      injection hts with hts
      rw [← hts] at ht
      rw [List.mem_map] at ht
      obtain ⟨g, hg, hgt⟩ := ht
      have hsub : t.subset = g.2 := by rw [← hgt]
      have hname : t.name = g.1 := by rw [← hgt]
      rw [hsub] at hm
      have hpair : (g.1, m) ∈ keyed := by
        have := groupPairs_mem keyed g.1 g.2 ?_ m hm
        · exact this
        · obtain ⟨k1, v1⟩ := g
          exact hg
      obtain ⟨f, _, hf⟩ := mapO_mem _ (sortFiles ds.files) keyed hmap (g.1, m) hpair
      cases hk : groupKey (normLevel ds.parentLevel) f with
      | none => rw [hk] at hf; simp at hf
      | some k0 =>
        rw [hk] at hf
        injection hf with hf
        have hk0 : k0 = g.1 := congrArg Prod.fst hf
        have hmf : Member.tree f = m := congrArg Prod.snd hf
        refine ⟨f, hmf.symm, ?_⟩
        rw [hk, hk0, hname]

def fxW : FSPath := ⟨"d1" :: [], "x", ".npy"⟩

def fyW : FSPath := ⟨"d2" :: [], "y", ".npy"⟩

/-- Witness for C7 at a concrete dataset: a two-file tree enumerated in
either order, and the key of a one-file group. -/
theorem tree_grouping_deterministic_witness :
    processDataset ⟨fxW :: fyW :: [], "s", "en" :: [], ".lab",
        Sum.inr (1 :: [])⟩ =
      processDataset ⟨fyW :: fxW :: [], "s", "en" :: [], ".lab",
        Sum.inr (1 :: [])⟩ ∧
    (∃ f, Member.tree fxW = Member.tree f ∧
      groupKey (normLevel (Sum.inr (1 :: []))) f = some "d1") := by
  constructor
  · exact tree_grouping_deterministic.1 (fxW :: fyW :: []) (fyW :: fxW :: [])
      "s" ("en" :: []) ".lab" (Sum.inr (1 :: []))
      (List.Perm.swap fyW fxW []) (by decide) (by decide)
  · exact tree_grouping_deterministic.2.2
      ⟨fxW :: [], "s", "en" :: [], ".lab", Sum.inr (1 :: [])⟩ _ rfl
      ⟨"d1", Member.tree fxW :: [], "s", "en" :: [], some ".lab"⟩
      (by decide) (Member.tree fxW) (by decide)

end BuildDataset
